import Mathlib

/-!
Verification development for the Safety-AI document pipeline.

Strings are modelled as `List Char`.  JavaScript string operations used by the
source (regex whitespace class, control-character class, `trim`,
`replace(/\s+/g, " ")`, `split(/\n\s*\n/)`, `match(/[^.!?]+[.!?]+/g)`) are
embedded as executable functions below.
-/

/-- The JavaScript regex whitespace class `\s`. -/
def jsWS (c : Char) : Bool :=
  c = ' ' || c = '\t' || c = '\n' || c = '\r' || c = '\x0b' || c = '\x0c' ||
  c.toNat = 0xa0 || c.toNat = 0x1680 ||
  (0x2000 ≤ c.toNat && c.toNat ≤ 0x200a) ||
  c.toNat = 0x2028 || c.toNat = 0x2029 || c.toNat = 0x202f ||
  c.toNat = 0x205f || c.toNat = 0x3000 || c.toNat = 0xfeff

/-- The control-character class `[\x00-\x09\x0B-\x0C\x0E-\x1F\x7F-\x9F]`
removed by `cleanText` in part_009. -/
def ctlChar (c : Char) : Bool :=
  c.toNat ≤ 0x09 || c.toNat = 0x0b || c.toNat = 0x0c ||
  (0x0e ≤ c.toNat && c.toNat ≤ 0x1f) || (0x7f ≤ c.toNat && c.toNat ≤ 0x9f)

/-- `replace(/\s+/g, " ")`: every maximal run of whitespace becomes one space. -/
def collapseWS : List Char → List Char
  | [] => []
  | [c] => if jsWS c then [' '] else [c]
  | c1 :: c2 :: rest =>
    if jsWS c1 && jsWS c2 then collapseWS (c2 :: rest)
    else (if jsWS c1 then ' ' else c1) :: collapseWS (c2 :: rest)

/-- Remove trailing whitespace. -/
def trimEnd (s : List Char) : List Char := (s.reverse.dropWhile jsWS).reverse

/-- JavaScript `String.prototype.trim`. -/
def trim (s : List Char) : List Char := trimEnd (s.dropWhile jsWS)

/-- The paragraph cleaning of `createChunks` in process-docx/index.ts:
`paragraph.replace(/\s+/g, " ").trim()`. -/
def cleanWS (s : List Char) : List Char := trim (collapseWS s)

/-- `cleanText` from part_009: remove control characters, collapse whitespace
runs to single spaces, trim. -/
def cleanText (s : List Char) : List Char :=
  trim (collapseWS (s.filter (fun c => !ctlChar c)))

/-- Suffix of `l` strictly after its last newline. -/
def afterLastNL (l : List Char) : List Char :=
  (l.reverse.takeWhile (fun c => c ≠ '\n')).reverse

/-- Scanner for `split(/\n\s*\n/)`: a separator is a newline followed by a
whitespace run that contains another newline; the match extends (greedily,
with backtracking) to the last newline of that run.  `fuel` bounds the
recursion and is always at least the length of the remaining input plus one. -/
def spAux : Nat → List Char → List Char → List (List Char)
  | 0, acc, _ => [acc.reverse]
  | _ + 1, acc, [] => [acc.reverse]
  | fuel + 1, acc, c :: rest =>
    if c = '\n' ∧ '\n' ∈ rest.takeWhile jsWS then
      acc.reverse ::
        spAux fuel [] (afterLastNL (rest.takeWhile jsWS) ++ rest.dropWhile jsWS)
    else spAux fuel (c :: acc) rest

/-- `text.split(/\n\s*\n/)`: split on blank-line boundaries. -/
def splitParas (s : List Char) : List (List Char) := spAux (s.length + 1) [] s

/-- Sentence terminators of the regex `[^.!?]+[.!?]+`. -/
def isTerm (c : Char) : Bool := c = '.' || c = '!' || c = '?'

/-- Scanner for `match(/[^.!?]+[.!?]+/g)`: each match is a maximal run of
non-terminators followed by a maximal run of terminators; leading terminator
runs are skipped and a trailing run with no terminator is not matched. -/
def smAux : Nat → List Char → List (List Char)
  | 0, _ => []
  | _ + 1, [] => []
  | fuel + 1, c :: cs =>
    let s1 := (c :: cs).dropWhile isTerm
    let t := s1.takeWhile (fun x => !isTerm x)
    let r := s1.dropWhile (fun x => !isTerm x)
    match r with
    | [] => []
    | _ :: _ => (t ++ r.takeWhile isTerm) :: smAux fuel (r.dropWhile isTerm)

/-- `cleanParagraph.match(/[^.!?]+[.!?]+/g)` (empty list for a null result). -/
def sentMatches (s : List Char) : List (List Char) := smAux s.length s

/-- `cleanParagraph.match(/[^.!?]+[.!?]+/g) || [cleanParagraph]`. -/
def sentencesOf (q : List Char) : List (List Char) :=
  match sentMatches q with
  | [] => [q]
  | m :: ms => m :: ms

/-- `currentChunk.join(" ")`. -/
def joinSp : List (List Char) → List Char
  | [] => []
  | [x] => x
  | x :: y :: rest => x ++ ' ' :: joinSp (y :: rest)

/-- The mutable state of the `createChunks` loop: completed chunks, the
current buffer, and the running `currentLength`. -/
structure ChunkState where
  chunks : List (List Char)
  current : List (List Char)
  curLen : Nat
deriving DecidableEq

/-- One `currentChunk.push` with its overflow check.  `extra` is the amount
added to `currentLength` beyond the piece length: `1` in process-docx
(`+= length + 1`), `0` in part_009 (`+= length`). -/
def pushPiece (L : Nat) (extra : Nat) (st : ChunkState) (piece : List Char) :
    ChunkState :=
  if L < st.curLen + piece.length ∧ st.current ≠ [] then
    ⟨st.chunks ++ [joinSp st.current], [piece], piece.length + extra⟩
  else
    ⟨st.chunks, st.current ++ [piece], st.curLen + piece.length + extra⟩

/-- One paragraph iteration of `createChunks` in part_009: clean with
`cleanText`, no empty-paragraph skip, sentence fallback cleans each sentence
with `cleanText`, and `currentLength` is advanced without the join separator. -/
def stepNine (L : Nat) (st : ChunkState) (paragraph : List Char) : ChunkState :=
  let cp := cleanText paragraph
  if L < cp.length then
    (sentencesOf cp).foldl (fun st s => pushPiece L 0 st (cleanText s)) st
  else pushPiece L 0 st cp

/-- The final `if (currentChunk.length > 0) chunks.push(currentChunk.join(" "))`. -/
def finishChunks (st : ChunkState) : List (List Char) :=
  if st.current = [] then st.chunks else st.chunks ++ [joinSp st.current]

/-- `createChunks` from part_009: paragraph split, greedy packing without the
`+1` separator accounting, then `map(cleanText).filter(length > 0)`. -/
def createChunksNine (text : List Char) (maxChunkLength : Nat) :
    List (List Char) :=
  let st := (splitParas text).foldl (stepNine maxChunkLength) ⟨[], [], 0⟩
  ((finishChunks st).map cleanText).filter (fun c => 0 < c.length)

/-- One paragraph iteration of `createChunks` in process-docx/index.ts:
clean with `replace(/\s+/g," ").trim()`, skip empty paragraphs, sentence
fallback trims each sentence, and `currentLength += length + 1`. -/
def stepDocx (L : Nat) (st : ChunkState) (paragraph : List Char) : ChunkState :=
  let cp := cleanWS paragraph
  if cp = [] then st
  else if L < cp.length then
    (sentencesOf cp).foldl (fun st s => pushPiece L 1 st (trim s)) st
  else pushPiece L 1 st cp

/-- `createChunks` from process-docx/index.ts: paragraph split, greedy packing
with the `+1` separator accounting, then `filter(length > 0).map(trim)`. -/
def createChunksDocx (text : List Char) (maxChunkLength : Nat) :
    List (List Char) :=
  let st := (splitParas text).foldl (stepDocx maxChunkLength) ⟨[], [], 0⟩
  ((finishChunks st).filter (fun c => 0 < c.length)).map trim

/-!
The `document_embeddings` table and the ingestion handlers (part_009 and
process-docx/index.ts share the same delete-then-insert control flow).
-/

/-- A row of the `document_embeddings` table.  The ingestion handlers insert
`{document_id, content, embedding, chunk_index}`; the process-document upload
path inserts only `{document_id, content}`, leaving the other columns null,
hence the `Option` fields. -/
structure Row where
  document_id : List Char
  content : List Char
  embedding : Option (List ℚ)
  chunk_index : Option Nat
deriving DecidableEq

/-- `from("document_embeddings").delete().eq("document_id", documentId)`. -/
def deleteDoc (store : List Row) (docId : List Char) : List Row :=
  store.filter (fun r => r.document_id ≠ docId)

/-- The rows stored for a document. -/
def docRows (store : List Row) (docId : List Char) : List Row :=
  store.filter (fun r => r.document_id = docId)

/-- The per-chunk loop of the ingestion handlers: embed the chunk, insert a
row with the running index, and abort the whole request on the first failure.
Returns the store as left visible by the handler together with a success flag
(the thrown error surfaces as a 500 response). -/
def insertLoop (embed : List Char → Except (List Char) (List ℚ))
    (docId : List Char) :
    List (List Char) → Nat → List Row → List Row × Bool
  | [], _, store => (store, true)
  | c :: rest, idx, store =>
    match embed c with
    | .error _ => (store, false)
    | .ok v =>
      insertLoop embed docId rest (idx + 1)
        (store ++ [⟨docId, c, some v, some idx⟩])

/-- The chunk-replacement section of the ingestion handlers: delete every
existing row of the document first, then insert the new chunks one at a time
with indices 0, 1, 2, …. -/
def replaceChunks (embed : List Char → Except (List Char) (List ℚ))
    (docId : List Char) (chunks : List (List Char)) (store : List Row) :
    List Row × Bool :=
  insertLoop embed docId chunks 0 (deleteDoc store docId)

/-- The rows a fully successful run inserts, when `embed` answers `.ok (f c)`
on every chunk. -/
def freshRows (f : List Char → List ℚ) (docId : List Char) :
    Nat → List (List Char) → List Row
  | _, [] => []
  | idx, c :: rest => ⟨docId, c, some (f c), some idx⟩ :: freshRows f docId (idx + 1) rest

/-!
The vector matcher.  `match_document_sections` is a Postgres function that is
not part of the repository sources; it is modelled from the spec below.
-/

/-- A match returned by the vector store: chunk index, chunk text, similarity. -/
structure Match where
  index : Nat
  content : List Char
  similarity : ℚ
deriving DecidableEq

/-- `a` is ranked no later than `b`: similarity descending, ties broken by
ascending chunk index. -/
def matchBefore (a b : Match) : Prop :=
  b.similarity < a.similarity ∨
    (a.similarity = b.similarity ∧ a.index ≤ b.index)

instance (a b : Match) : Decidable (matchBefore a b) :=
  inferInstanceAs (Decidable (b.similarity < a.similarity ∨
    (a.similarity = b.similarity ∧ a.index ≤ b.index)))

/-- Insert a match into a list ordered by `matchBefore`. -/
def insertMatch (a : Match) : List Match → List Match
  | [] => [a]
  | b :: rest =>
    if matchBefore a b then a :: b :: rest else b :: insertMatch a rest

/-- Insertion sort by `matchBefore`. -/
def sortMatches (l : List Match) : List Match := l.foldr insertMatch []

/-- The candidate match a row contributes for a query against `docId`:
only rows of that document that carry a vector and a chunk index. -/
def rowMatch (sim : List ℚ → List ℚ → ℚ) (q : List ℚ) (docId : List Char)
    (r : Row) : Option Match :=
  if r.document_id = docId then
    match r.embedding, r.chunk_index with
    | some v, some i => some ⟨i, r.content, sim q v⟩
    | _, _ => none
  else none

/-- Modelled from the spec: the Postgres function `match_document_sections`
(invoked by supabase/functions/chat/index.ts via `rpc`, but not present in
the repository sources).  Per spec §4.4 it returns at most `matchCount`
chunks of `documentId` whose similarity to `queryEmbedding` is at least
`matchThreshold`, ordered by similarity descending with ties broken by
ascending chunk index.  The similarity metric is abstracted as `sim`. -/
def matchDocumentSections (sim : List ℚ → List ℚ → ℚ) (store : List Row)
    (queryEmbedding : List ℚ) (documentId : List Char)
    (matchThreshold : ℚ) (matchCount : Nat) : List Match :=
  (sortMatches
    (((store.filterMap (rowMatch sim queryEmbedding documentId)).filter
      (fun m => matchThreshold ≤ m.similarity)))).take matchCount

/-!
The chat orchestrator, supabase/functions/chat/index.ts.
-/

/-- The literal `match_threshold: 0.7` of the chat handler's rpc call. -/
def chatMatchThreshold : ℚ := 7 / 10

/-- The literal `match_count: 5` of the chat handler's rpc call. -/
def chatMatchCount : Nat := 5

/-- Error outcomes of the chat handler (all surface as a 500 response whose
body carries the thrown message). -/
inductive ChatError where
  | invalidInput
  | missingKey
  | embeddingService (msg : List Char)
  | answerService (msg : List Char)
deriving DecidableEq

/-- The success payload built at chat/index.ts lines 140-144: the generated
answer plus `debug.chunksFound`.  No other data about the matches is included. -/
structure ChatResponse where
  response : List Char
  chunksFound : Nat
deriving DecidableEq

/-- `{ response: …, debug: { chunksFound: chunks?.length || 0 } }`. -/
def mkChatResponse (answer : List Char) (ms : List Match) : ChatResponse :=
  ⟨answer, ms.length⟩

/-- `join("\n\n")`: blank-line join used for context assembly. -/
def joinBlank : List (List Char) → List Char
  | [] => []
  | [x] => x
  | x :: y :: rest => x ++ '\n' :: '\n' :: joinBlank (y :: rest)

/-- `(chunks || []).map((chunk) => chunk.content).join("\n\n")`. -/
def assembleContext (ms : List Match) : List Char :=
  joinBlank (ms.map (fun m => m.content))

/-- The chat handler: validate `question`/`documentId`, check the OpenAI key,
embed the question, query the matcher with the hard-coded threshold 0.7 and
count 5, join the matched contents with blank lines, call the answer service,
and return the answer with the match count.  External services are injected
as functions. -/
def chatHandler (keyPresent : Bool)
    (embedSvc : List Char → Except (List Char) (List ℚ))
    (answerSvc : List Char → List Char → Except (List Char) (List Char))
    (sim : List ℚ → List ℚ → ℚ) (store : List Row)
    (question documentId : List Char) : Except ChatError ChatResponse :=
  if question = [] ∨ documentId = [] then .error .invalidInput
  else if !keyPresent then .error .missingKey
  else
    match embedSvc question with
    | .error msg => .error (.embeddingService msg)
    | .ok qv =>
      let ms :=
        matchDocumentSections sim store qv documentId
          chatMatchThreshold chatMatchCount
      match answerSvc (assembleContext ms) question with
      | .error msg => .error (.answerService msg)
      | .ok answer => .ok (mkChatResponse answer ms)

/-!
The process-document upload handler's tail (lines 157-179 of
supabase/functions/process-document/index.ts, same in part_010).
-/

/-- The row the upload path inserts into `document_embeddings`: only
`document_id` and `content` (the raw extracted text); no embedding vector and
no chunk index. -/
def uploadEmbeddingRow (docId extractedText : List Char) : Row :=
  ⟨docId, extractedText, none, none⟩

/-- The response of the upload handler. -/
structure UploadResponse where
  success : Bool
  filePath : List Char
  documentId : List Char
  extractedText : List Char
deriving DecidableEq

/-- The tail of the upload handler: if extraction produced text, attempt the
`document_embeddings` insert; an insert error is only logged (`console.error`)
and the handler still answers `{ success: true, … }`. -/
def processDocumentTail (store : List Row) (insertOk : Bool)
    (filePath docId extractedText : List Char) : List Row × UploadResponse :=
  let store' :=
    if extractedText = [] then store
    else if insertOk then store ++ [uploadEmbeddingRow docId extractedText]
    else store
  (store', ⟨true, filePath, docId, extractedText⟩)

/-!
Claim C1 — content preservation of the chunker.
-/

/-- The concrete input exhibiting content loss: one paragraph longer than the
limit whose text continues after the last sentence terminator. -/
def lossInput : List Char := String.toList "abc. defgh"

/-- C1: the claim that `createChunks` loses no non-whitespace character of the
normalized input is false: for the paragraph "abc. defgh" with
maxChunkLength 5, both copies of `createChunks` return only ["abc."] — the
regex `match(/[^.!?]+[.!?]+/g)` does not match the trailing text "defgh"
after the last sentence terminator, so those characters are dropped. -/
theorem createChunks_drops_trailing_text :
    createChunksNine lossInput 5 = [String.toList "abc."] ∧
    createChunksDocx lossInput 5 = [String.toList "abc."] ∧
    'd' ∈ cleanText lossInput ∧ 'd' ∈ cleanWS lossInput ∧
    (∀ c ∈ createChunksNine lossInput 5, 'd' ∉ c) ∧
    (∀ c ∈ createChunksDocx lossInput 5, 'd' ∉ c) := by
  decide

/-!
Claim C7 — the chat success response does not carry the matches.
-/

/-- C7: the claim that the orchestrator's success response contains the list
of matches with each match's content and similarity is false: the response
built by chat/index.ts carries only the answer text and the match count, so
two runs whose matches differ in content and similarity produce identical
responses, and the `sourceSections` field the frontend reads is never sent. -/
theorem chatResponse_omits_sources :
    mkChatResponse (String.toList "ok") [⟨0, String.toList "alpha", 9 / 10⟩] =
      mkChatResponse (String.toList "ok") [⟨3, String.toList "beta", 8 / 10⟩] ∧
    (String.toList "alpha" ≠ String.toList "beta") ∧
    ((9 : ℚ) / 10 ≠ 8 / 10) := by
  refine ⟨rfl, by decide, by norm_num⟩

/-!
Claim C10 — the upload path swallows the embeddings-insert failure.
-/

/-- C10: in the process-document upload path a failing
`document_embeddings` insert is only logged: the handler's response is
identical whether the insert succeeded or failed, it always reports
`success: true`, and the row it attempts to store carries the raw extracted
text with no embedding vector and no chunk index. -/
theorem processDocument_ignores_insert_failure
    (store : List Row) (filePath docId extractedText : List Char) :
    (processDocumentTail store false filePath docId extractedText).2 =
      (processDocumentTail store true filePath docId extractedText).2 ∧
    (processDocumentTail store false filePath docId extractedText).2.success = true ∧
    (uploadEmbeddingRow docId extractedText).embedding = none ∧
    (uploadEmbeddingRow docId extractedText).chunk_index = none ∧
    (uploadEmbeddingRow docId extractedText).content = extractedText := by
  refine ⟨rfl, rfl, rfl, rfl, rfl⟩

/-!
Supporting lemmas about the ingestion loop.
-/

theorem insertLoop_ok (embed : List Char → Except (List Char) (List ℚ))
    (f : List Char → List ℚ) (docId : List Char) :
    ∀ (chunks : List (List Char)) (idx : Nat) (store : List Row),
      (∀ c ∈ chunks, embed c = .ok (f c)) →
      insertLoop embed docId chunks idx store =
        (store ++ freshRows f docId idx chunks, true) := by
  intro chunks
  induction chunks with
  | nil => intro idx store _; simp [insertLoop, freshRows]
  | cons c rest ih =>
    intro idx store h
    have hc : embed c = .ok (f c) := h c (by simp)
    simp only [insertLoop, hc]
    exact (ih (idx + 1) _ (fun x hx => h x (by simp [hx]))).trans
      (by simp [freshRows])

theorem insertLoop_fail (embed : List Char → Except (List Char) (List ℚ))
    (f : List Char → List ℚ) (docId : List Char) :
    ∀ (chunks : List (List Char)) (k : Nat) (idx : Nat) (store : List Row)
      (ck : List Char) (e : List Char),
      (∀ c ∈ chunks.take k, embed c = .ok (f c)) →
      chunks[k]? = some ck → embed ck = .error e →
      insertLoop embed docId chunks idx store =
        (store ++ freshRows f docId idx (chunks.take k), false) := by
  intro chunks
  induction chunks with
  | nil => intro k idx store ck e _ hk _; simp at hk
  | cons c rest ih =>
    intro k idx store ck e hok hk he
    cases k with
    | zero =>
      simp only [List.getElem?_cons_zero, Option.some.injEq] at hk
      subst hk
      simp [insertLoop, he, freshRows]
    | succ k =>
      have hc : embed c = .ok (f c) := hok c (by simp)
      simp only [List.getElem?_cons_succ] at hk
      simp only [insertLoop, hc]
      exact (ih k (idx + 1) _ ck e
        (fun x hx => hok x (by simp [List.take_succ_cons, hx])) hk he).trans
        (by simp [List.take_succ_cons, freshRows])

theorem deleteDoc_append (a b : List Row) (d : List Char) :
    deleteDoc (a ++ b) d = deleteDoc a d ++ deleteDoc b d := by
  simp [deleteDoc, List.filter_append]

theorem freshRows_docId (f : List Char → List ℚ) (d : List Char) :
    ∀ (idx : Nat) (l : List (List Char)),
      ∀ r ∈ freshRows f d idx l, r.document_id = d := by
  intro idx l
  induction l generalizing idx with
  | nil => simp [freshRows]
  | cons c rest ih =>
    intro r hr
    simp only [freshRows, List.mem_cons] at hr
    rcases hr with h | h
    · rw [h]
    · exact ih (idx + 1) r h

theorem deleteDoc_freshRows (f : List Char → List ℚ) (d : List Char) :
    ∀ (idx : Nat) (l : List (List Char)), deleteDoc (freshRows f d idx l) d = [] := by
  intro idx l
  simp only [deleteDoc, List.filter_eq_nil_iff]
  intro r hr
  simp [freshRows_docId f d idx l r hr]

theorem deleteDoc_idem (s : List Row) (d : List Char) :
    deleteDoc (deleteDoc s d) d = deleteDoc s d := by
  simp [deleteDoc, List.filter_filter]

theorem docRows_append (a b : List Row) (d : List Char) :
    docRows (a ++ b) d = docRows a d ++ docRows b d := by
  simp [docRows, List.filter_append]

theorem docRows_deleteDoc (s : List Row) (d : List Char) :
    docRows (deleteDoc s d) d = [] := by
  simp only [docRows, deleteDoc, List.filter_filter]
  apply List.filter_eq_nil_iff.mpr
  intro r _
  by_cases h : r.document_id = d <;> simp [h]

theorem docRows_freshRows (f : List Char → List ℚ) (d : List Char) :
    ∀ (idx : Nat) (l : List (List Char)),
      docRows (freshRows f d idx l) d = freshRows f d idx l := by
  intro idx l
  simp only [docRows, List.filter_eq_self]
  intro r hr
  simp [freshRows_docId f d idx l r hr]

theorem freshRows_content (f : List Char → List ℚ) (d : List Char) :
    ∀ (idx : Nat) (l : List (List Char)),
      (freshRows f d idx l).map Row.content = l := by
  intro idx l
  induction l generalizing idx with
  | nil => simp [freshRows]
  | cons c rest ih => simp [freshRows, ih]

theorem freshRows_index (f : List Char → List ℚ) (d : List Char) :
    ∀ (idx : Nat) (l : List (List Char)),
      (freshRows f d idx l).map Row.chunk_index =
        (List.range' idx l.length).map some := by
  intro idx l
  induction l generalizing idx with
  | nil => simp [freshRows]
  | cons c rest ih => simp [freshRows, ih, List.range'_succ]

/-!
Claim C4 — atomicity of chunk replacement.
-/

/-- The pre-existing generation of chunks in the C4 counterexample. -/
def oldRow : Row := ⟨String.toList "d1", String.toList "old", some [1], some 0⟩

/-- An embedding service that fails exactly on the chunk "b". -/
def failingEmbed : List Char → Except (List Char) (List ℚ) :=
  fun c => if c = String.toList "b" then .error (String.toList "boom") else .ok [2]

/-- C4 counterexample: chunk replacement is not all-or-nothing.  With one old
chunk stored and two new chunks whose second embedding call fails, the
handler leaves exactly one row: the old generation is already deleted and
only the first new chunk was inserted — neither the pre-existing state nor a
complete new generation. -/
theorem replaceChunks_not_atomic :
    (replaceChunks failingEmbed (String.toList "d1")
        [String.toList "a", String.toList "b"] [oldRow]).2 = false ∧
    (replaceChunks failingEmbed (String.toList "d1")
        [String.toList "a", String.toList "b"] [oldRow]).1 =
      [⟨String.toList "d1", String.toList "a", some [2], some 0⟩] ∧
    docRows (replaceChunks failingEmbed (String.toList "d1")
        [String.toList "a", String.toList "b"] [oldRow]).1 (String.toList "d1") ≠
      docRows [oldRow] (String.toList "d1") ∧
    (replaceChunks failingEmbed (String.toList "d1")
        [String.toList "a", String.toList "b"] [oldRow]).1.length ≠ 2 := by
  decide

/-- C4 amended: the delete happens first and the inserts are per-chunk, so a
failure at chunk `k` leaves the document populated with exactly the first `k`
chunks of the new generation (the old generation is gone), and the handler
reports failure. -/
theorem replaceChunks_partial_failure
    (embed : List Char → Except (List Char) (List ℚ))
    (f : List Char → List ℚ) (docId : List Char)
    (chunks : List (List Char)) (store : List Row)
    (k : Nat) (ck e : List Char)
    (hok : ∀ c ∈ chunks.take k, embed c = .ok (f c))
    (hk : chunks[k]? = some ck) (he : embed ck = .error e) :
    replaceChunks embed docId chunks store =
      (deleteDoc store docId ++ freshRows f docId 0 (chunks.take k), false) := by
  unfold replaceChunks
  exact insertLoop_fail embed f docId chunks k 0 (deleteDoc store docId) ck e hok hk he

/-- Witness for the amended C4 at the counterexample input. -/
theorem replaceChunks_partial_failure_witness :
    replaceChunks failingEmbed (String.toList "d1")
        [String.toList "a", String.toList "b"] [oldRow] =
      (deleteDoc [oldRow] (String.toList "d1") ++
        freshRows (fun _ => [2]) (String.toList "d1") 0
          ([String.toList "a", String.toList "b"].take 1), false) :=
  replaceChunks_partial_failure failingEmbed (fun _ => [2]) (String.toList "d1")
    [String.toList "a", String.toList "b"] [oldRow] 1 (String.toList "b")
    (String.toList "boom") (by intro c hc; simp at hc; subst hc; rfl) rfl rfl

/-!
Claim C5 — re-processing the same document with the same text is idempotent.
-/

/-- C5: with a deterministic embedding service (`embed` answers `.ok (f c)`
on every chunk), running the chunk-replacement twice leaves exactly the same
store as running it once: the document holds exactly `chunks.length` rows,
with contiguous zero-based indices, the original contents, the vectors
`f c`, and matcher queries against the resulting stores agree. -/
theorem replaceChunks_idempotent
    (embed : List Char → Except (List Char) (List ℚ))
    (f : List Char → List ℚ) (docId : List Char)
    (chunks : List (List Char)) (store : List Row)
    (h : ∀ c ∈ chunks, embed c = .ok (f c)) :
    replaceChunks embed docId chunks
        (replaceChunks embed docId chunks store).1 =
      replaceChunks embed docId chunks store ∧
    (replaceChunks embed docId chunks store).2 = true ∧
    docRows (replaceChunks embed docId chunks store).1 docId =
      freshRows f docId 0 chunks ∧
    (docRows (replaceChunks embed docId chunks store).1 docId).map Row.content =
      chunks ∧
    (docRows (replaceChunks embed docId chunks store).1 docId).map
        Row.chunk_index = (List.range chunks.length).map some ∧
    (∀ sim q thr k,
      matchDocumentSections sim
          (replaceChunks embed docId chunks
            (replaceChunks embed docId chunks store).1).1 q docId thr k =
        matchDocumentSections sim (replaceChunks embed docId chunks store).1
          q docId thr k) := by
  have h1 : replaceChunks embed docId chunks store =
      (deleteDoc store docId ++ freshRows f docId 0 chunks, true) := by
    unfold replaceChunks
    exact insertLoop_ok embed f docId chunks 0 (deleteDoc store docId) h
  have hdel : deleteDoc (deleteDoc store docId ++ freshRows f docId 0 chunks)
      docId = deleteDoc store docId := by
    rw [deleteDoc_append, deleteDoc_idem, deleteDoc_freshRows, List.append_nil]
  have h2 : replaceChunks embed docId chunks
      (replaceChunks embed docId chunks store).1 =
      replaceChunks embed docId chunks store := by
    rw [h1]
    unfold replaceChunks
    rw [hdel, insertLoop_ok embed f docId chunks 0 (deleteDoc store docId) h]
  have hrows : docRows (replaceChunks embed docId chunks store).1 docId =
      freshRows f docId 0 chunks := by
    rw [h1, docRows_append, docRows_deleteDoc, docRows_freshRows,
      List.nil_append]
  refine ⟨h2, by rw [h1], hrows, ?_, ?_, fun sim q thr k => by rw [h2]⟩
  · rw [hrows, freshRows_content]
  · rw [hrows, freshRows_index, List.range_eq_range']

/-- Witness for C5 at a concrete input: one old row of another generation,
two chunks, a constant embedding service. -/
theorem replaceChunks_idempotent_witness :
    replaceChunks (fun _ => .ok [1]) (String.toList "d1")
        [String.toList "a", String.toList "b"]
        (replaceChunks (fun _ => .ok [1]) (String.toList "d1")
          [String.toList "a", String.toList "b"] [oldRow]).1 =
      replaceChunks (fun _ => .ok [1]) (String.toList "d1")
        [String.toList "a", String.toList "b"] [oldRow] ∧
    (docRows (replaceChunks (fun _ => .ok [1]) (String.toList "d1")
        [String.toList "a", String.toList "b"] [oldRow]).1
        (String.toList "d1")).map Row.content =
      [String.toList "a", String.toList "b"] := by
  have h := replaceChunks_idempotent (fun _ => .ok [1]) (fun _ => [1])
    (String.toList "d1") [String.toList "a", String.toList "b"] [oldRow]
    (fun c _ => rfl)
  exact ⟨h.1, h.2.2.2.1⟩

/-!
Claims C8 and C9 — the chat orchestrator.
-/

/-- C8: zero matches is not an error.  If the question embeds successfully and
the matcher returns no chunk, the assembled context is the empty string
(blank-line join of no contents) and the handler still calls the answer
service and returns its answer successfully, reporting zero chunks found. -/
theorem chatHandler_zero_matches
    (embedSvc : List Char → Except (List Char) (List ℚ))
    (answerSvc : List Char → List Char → Except (List Char) (List Char))
    (sim : List ℚ → List ℚ → ℚ) (store : List Row)
    (q docId : List Char) (qv : List ℚ) (ans : List Char)
    (hq : q ≠ []) (hd : docId ≠ [])
    (he : embedSvc q = .ok qv)
    (hm : matchDocumentSections sim store qv docId
      chatMatchThreshold chatMatchCount = [])
    (ha : answerSvc [] q = .ok ans) :
    assembleContext [] = [] ∧
    chatHandler true embedSvc answerSvc sim store q docId =
      .ok (mkChatResponse ans []) := by
  constructor
  · rfl
  · simp only [chatHandler, hq, hd, or_self, if_false, he, hm,
      Bool.not_true, if_neg]
    simp only [hm] at *
    simpa [assembleContext, joinBlank] using by rw [ha]

/-- Witness for C8 with an empty store, so the matcher finds nothing. -/
theorem chatHandler_zero_matches_witness :
    chatHandler true (fun _ => .ok [1]) (fun _ _ => .ok (String.toList "ok"))
        (fun _ _ => 0) [] (String.toList "hi") (String.toList "d1") =
      .ok (mkChatResponse (String.toList "ok") []) :=
  (chatHandler_zero_matches (fun _ => .ok [1])
    (fun _ _ => .ok (String.toList "ok")) (fun _ _ => 0) []
    (String.toList "hi") (String.toList "d1") [1] (String.toList "ok")
    (by decide) (by decide) rfl rfl rfl).2

/-- C9: an empty question is rejected before any call to the embedding
service (the outcome is the validation error for every injected service);
for a non-empty question (and document id), with the API key present, the
handler fails with the embedding-service error carrying the upstream message
exactly when the injected embedding call errors. -/
theorem chatHandler_embed_errors
    (embedSvc : List Char → Except (List Char) (List ℚ))
    (answerSvc : List Char → List Char → Except (List Char) (List Char))
    (sim : List ℚ → List ℚ → ℚ) (store : List Row) (q docId : List Char) :
    (q = [] → ∀ embedSvc2,
      chatHandler true embedSvc2 answerSvc sim store q docId =
        .error .invalidInput) ∧
    (q ≠ [] → docId ≠ [] → ∀ msg,
      (embedSvc q = .error msg →
        chatHandler true embedSvc answerSvc sim store q docId =
          .error (.embeddingService msg)) ∧
      (chatHandler true embedSvc answerSvc sim store q docId =
          .error (.embeddingService msg) →
        embedSvc q = .error msg)) := by
  constructor
  · intro hq embedSvc2
    simp [chatHandler, hq]
  · intro hq hd msg
    constructor
    · intro he
      simp [chatHandler, hq, hd, he]
    · intro hres
      simp only [chatHandler, hq, hd, or_self, if_false, Bool.not_true,
        if_neg] at hres
      cases he : embedSvc q with
      | error m =>
        simp only [he] at hres
        simpa using hres
      | ok v =>
        simp only [he] at hres
        rcases hans : answerSvc (assembleContext
          (matchDocumentSections sim store v docId chatMatchThreshold
            chatMatchCount)) q with m | a <;> simp [hans] at hres

/-- Witness for C9: the empty question is rejected as invalid input, and a
failing embedding call surfaces as the embedding-service error with the
upstream message. -/
theorem chatHandler_embed_errors_witness :
    chatHandler true (fun _ => .ok [1])
        (fun _ _ => .ok (String.toList "ok")) (fun _ _ => 0) [] []
        (String.toList "d1") = .error .invalidInput ∧
    chatHandler true (fun _ => .error (String.toList "boom"))
        (fun _ _ => .ok (String.toList "ok")) (fun _ _ => 0) []
        (String.toList "hi") (String.toList "d1") =
      .error (.embeddingService (String.toList "boom")) := by
  constructor
  · exact (chatHandler_embed_errors (fun _ => .ok [1])
      (fun _ _ => .ok (String.toList "ok")) (fun _ _ => 0) [] []
      (String.toList "d1")).1 rfl (fun _ => .ok [1])
  · exact ((chatHandler_embed_errors (fun _ => .error (String.toList "boom"))
      (fun _ _ => .ok (String.toList "ok")) (fun _ _ => 0) []
      (String.toList "hi") (String.toList "d1")).2 (by decide) (by decide)
      (String.toList "boom")).1 rfl

/-!
Claim C6 — the matcher contract.
-/

theorem matchBefore_total (a b : Match) : matchBefore a b ∨ matchBefore b a := by
  unfold matchBefore
  rcases lt_trichotomy a.similarity b.similarity with h | h | h
  · exact Or.inr (Or.inl h)
  · rcases Nat.le_total a.index b.index with hi | hi
    · exact Or.inl (Or.inr ⟨h, hi⟩)
    · exact Or.inr (Or.inr ⟨h.symm, hi⟩)
  · exact Or.inl (Or.inl h)

theorem matchBefore_trans {a b c : Match}
    (hab : matchBefore a b) (hbc : matchBefore b c) : matchBefore a c := by
  unfold matchBefore at *
  rcases hab with h1 | ⟨h1, h1i⟩ <;> rcases hbc with h2 | ⟨h2, h2i⟩
  · exact Or.inl (h2.trans h1)
  · exact Or.inl (h2 ▸ h1)
  · exact Or.inl (h1 ▸ h2)
  · exact Or.inr ⟨h1.trans h2, h1i.trans h2i⟩

theorem mem_insertMatch (x a : Match) :
    ∀ l, x ∈ insertMatch a l ↔ x = a ∨ x ∈ l := by
  intro l
  induction l with
  | nil => simp [insertMatch]
  | cons b rest ih =>
    by_cases h : matchBefore a b
    · simp [insertMatch, h]
    · simp only [insertMatch, if_neg h, List.mem_cons, ih]
      tauto

theorem pairwise_insertMatch (a : Match) :
    ∀ l, List.Pairwise matchBefore l →
      List.Pairwise matchBefore (insertMatch a l) := by
  intro l
  induction l with
  | nil => intro _; simp [insertMatch]
  | cons b rest ih =>
    intro hp
    rw [List.pairwise_cons] at hp
    by_cases h : matchBefore a b
    · simp only [insertMatch, if_pos h]
      rw [List.pairwise_cons]
      refine ⟨?_, List.pairwise_cons.mpr hp⟩
      intro x hx
      rcases List.mem_cons.mp hx with hxb | hxr
      · exact hxb ▸ h
      · exact matchBefore_trans h (hp.1 x hxr)
    · simp only [insertMatch, if_neg h]
      rw [List.pairwise_cons]
      refine ⟨?_, ih hp.2⟩
      intro x hx
      rcases (mem_insertMatch x a rest).mp hx with hxa | hxr
      · rcases matchBefore_total a b with hab | hba
        · exact absurd hab h
        · exact hxa ▸ hba
      · exact hp.1 x hxr

theorem pairwise_sortMatches (l : List Match) :
    List.Pairwise matchBefore (sortMatches l) := by
  induction l with
  | nil => simp [sortMatches]
  | cons a rest ih => exact pairwise_insertMatch a _ ih

theorem mem_sortMatches (x : Match) :
    ∀ l, x ∈ sortMatches l ↔ x ∈ l := by
  intro l
  induction l with
  | nil => simp [sortMatches]
  | cons a rest ih =>
    show x ∈ insertMatch a (sortMatches rest) ↔ _
    rw [mem_insertMatch, ih]
    simp

/-- C6: the modelled `match_document_sections` returns at most `matchCount`
matches; every returned match has similarity at least `matchThreshold` and
stems from a stored row of the target document (with that row's chunk index,
content, and similarity to the query vector); the result is ordered by
similarity descending with ties broken by ascending chunk index; and the
chat orchestrator invokes it with the configurable parameters instantiated
at the literals 0.7 and 5. -/
theorem matchDocumentSections_contract (sim : List ℚ → List ℚ → ℚ)
    (store : List Row) (q : List ℚ) (docId : List Char)
    (thr : ℚ) (k : Nat) :
    (matchDocumentSections sim store q docId thr k).length ≤ k ∧
    (∀ m ∈ matchDocumentSections sim store q docId thr k,
      thr ≤ m.similarity ∧
      ∃ r ∈ store, r.document_id = docId ∧
        rowMatch sim q docId r = some m) ∧
    List.Pairwise matchBefore (matchDocumentSections sim store q docId thr k) ∧
    chatMatchThreshold = 7 / 10 ∧ chatMatchCount = 5 := by
  refine ⟨List.length_take_le k _, ?_, ?_, rfl, rfl⟩
  · intro m hm
    have hm1 : m ∈ sortMatches ((store.filterMap
        (rowMatch sim q docId)).filter (fun m => thr ≤ m.similarity)) :=
      List.take_subset _ _ hm
    have hm2 := (mem_sortMatches m _).mp hm1
    rw [List.mem_filter] at hm2
    have hthr : thr ≤ m.similarity := by
      have := hm2.2
      simpa using this
    obtain ⟨r, hr, hrm⟩ := List.mem_filterMap.mp hm2.1
    refine ⟨hthr, r, hr, ?_, hrm⟩
    unfold rowMatch at hrm
    by_cases hd : r.document_id = docId
    · exact hd
    · simp [hd] at hrm
  · exact (pairwise_sortMatches _).sublist (List.take_sublist k _)

/-- Concrete store row used in the C6 witness. -/
def c6Row : Row := ⟨String.toList "d1", String.toList "x", some [1], some 0⟩

/-- Witness for C6: on a one-row store with constant similarity 1 and
threshold 0, the single returned match meets the threshold. -/
theorem matchDocumentSections_contract_witness :
    (⟨0, String.toList "x", 1⟩ : Match) ∈
      matchDocumentSections (fun _ _ => 1) [c6Row] [1]
        (String.toList "d1") 0 5 ∧
    (0 : ℚ) ≤ (⟨0, String.toList "x", 1⟩ : Match).similarity := by
  refine ⟨by decide, ?_⟩
  exact ((matchDocumentSections_contract (fun _ _ => 1) [c6Row] [1]
    (String.toList "d1") 0 5).2.1 _ (by decide)).1

/-!
Lemmas about `trim` and `joinSp`.
-/

theorem dropWhile_head_not {p : Char → Bool} {l : List Char} {c : Char}
    {rest : List Char} (h : l.dropWhile p = c :: rest) : p c = false := by
  have h2 := List.head?_dropWhile_not p l
  rw [h] at h2
  simpa using h2

theorem dropWhile_idem (p : Char → Bool) (l : List Char) :
    (l.dropWhile p).dropWhile p = l.dropWhile p := by
  cases h : l.dropWhile p with
  | nil => rfl
  | cons c rest => simp [List.dropWhile_cons, dropWhile_head_not h]

theorem trimEnd_prefixOf (s : List Char) : trimEnd s <+: s := by
  obtain ⟨t, ht⟩ := List.dropWhile_suffix (l := s.reverse) jsWS
  refine ⟨t.reverse, ?_⟩
  show (s.reverse.dropWhile jsWS).reverse ++ t.reverse = s
  rw [← List.reverse_append, ht, List.reverse_reverse]

theorem trimEnd_length_le (s : List Char) : (trimEnd s).length ≤ s.length := by
  simpa [trimEnd] using
    (List.dropWhile_suffix (l := s.reverse) jsWS).sublist.length_le

theorem trim_length_le (s : List Char) : (trim s).length ≤ s.length :=
  le_trans (trimEnd_length_le _)
    (List.dropWhile_suffix jsWS).sublist.length_le

theorem mem_of_mem_trim {c : Char} {s : List Char} (h : c ∈ trim s) : c ∈ s :=
  (List.dropWhile_suffix jsWS).sublist.subset
    ((trimEnd_prefixOf _).sublist.subset h)

theorem dropWhile_trimEnd_eq (s : List Char) (h : s.dropWhile jsWS = s) :
    (trimEnd s).dropWhile jsWS = trimEnd s := by
  cases ht : trimEnd s with
  | nil => rfl
  | cons c rest =>
    obtain ⟨tail, htail⟩ := trimEnd_prefixOf s
    rw [ht] at htail
    have hc : jsWS c = false := by
      by_cases hw : jsWS c
      · rw [← htail, List.cons_append, List.dropWhile_cons, if_pos hw] at h
        have hlen := congrArg List.length h
        have hle :=
          (List.dropWhile_suffix (l := rest ++ tail) jsWS).sublist.length_le
        simp at hlen hle
        omega
      · simpa using hw
    simp [List.dropWhile_cons, hc]

theorem trimEnd_idem (s : List Char) : trimEnd (trimEnd s) = trimEnd s := by
  show trimEnd ((s.reverse.dropWhile jsWS).reverse) = trimEnd s
  unfold trimEnd
  rw [List.reverse_reverse, dropWhile_idem]

theorem trim_idem (s : List Char) : trim (trim s) = trim s := by
  show trimEnd ((trimEnd (s.dropWhile jsWS)).dropWhile jsWS) = _
  rw [dropWhile_trimEnd_eq _ (dropWhile_idem jsWS s), trimEnd_idem]
  rfl

/-- Total length of the buffered pieces. -/
def sumLen (l : List (List Char)) : Nat := (l.map List.length).sum

theorem joinSp_length (l : List (List Char)) (h : l ≠ []) :
    (joinSp l).length + 1 = sumLen l + l.length := by
  induction l with
  | nil => exact absurd rfl h
  | cons x rest ih =>
    cases rest with
    | nil => simp [joinSp, sumLen]
    | cons y rest2 =>
      have := ih (by simp)
      simp only [joinSp, sumLen, List.map_cons, List.sum_cons,
        List.length_cons, List.length_append] at *
      omega

/-!
Claim C2 — the chunk length bound, proved for the process-docx copy.
-/

/-- `c` is one of the (trimmed) sentence pieces of an over-long paragraph of
`P` — the only chunks allowed to exceed the limit. -/
def pieceFromDocx (P : List (List Char)) (L : Nat) (c : List Char) : Prop :=
  ∃ p ∈ P, L < (cleanWS p).length ∧ c ∈ (sentencesOf (cleanWS p)).map trim

/-- A chunk is within the limit, or is a single over-long sentence. -/
def goodChunk (P : List (List Char)) (L : Nat) (c : List Char) : Prop :=
  c.length ≤ L ∨ (L < c.length ∧ pieceFromDocx P L c)

/-- Loop invariant of the process-docx `createChunks`: every completed chunk
is good, and the buffer either joins to at most `L` characters or holds a
single over-long sentence; `curLen` counts each piece's length plus one. -/
def chunkInv (P : List (List Char)) (L : Nat) (st : ChunkState) : Prop :=
  (∀ c ∈ st.chunks, goodChunk P L c) ∧
  (st.current = [] → st.curLen = 0) ∧
  (st.current ≠ [] →
    st.curLen = sumLen st.current + st.current.length ∧
    ((joinSp st.current).length ≤ L ∨
      ∃ s, st.current = [s] ∧ L < s.length ∧ pieceFromDocx P L s))

theorem flush_good {P : List (List Char)} {L : Nat} {st : ChunkState}
    (h : chunkInv P L st) (hne : st.current ≠ []) :
    goodChunk P L (joinSp st.current) := by
  rcases (h.2.2 hne).2 with hle | ⟨s, hs, hlen, hp⟩
  · exact Or.inl hle
  · rw [hs]
    exact Or.inr ⟨hlen, hp⟩

theorem pushPiece_inv {P : List (List Char)} {L : Nat} {st : ChunkState}
    {piece : List Char} (h : chunkInv P L st)
    (hp : piece.length ≤ L ∨ pieceFromDocx P L piece) :
    chunkInv P L (pushPiece L 1 st piece) := by
  have hsingle : ((joinSp [piece]).length ≤ L ∨
      ∃ s, [piece] = [s] ∧ L < s.length ∧ pieceFromDocx P L s) := by
    by_cases hl : piece.length ≤ L
    · exact Or.inl hl
    · rcases hp with hple | hpf
      · exact absurd hple hl
      · exact Or.inr ⟨piece, rfl, Nat.lt_of_not_le hl, hpf⟩
  unfold pushPiece
  by_cases hc : L < st.curLen + piece.length ∧ st.current ≠ []
  · rw [if_pos hc]
    refine ⟨?_, by simp, ?_⟩
    · intro c hcm
      rcases List.mem_append.mp hcm with hold | hnew
      · exact h.1 c hold
      · rw [List.mem_singleton.mp hnew]
        exact flush_good h hc.2
    · intro _
      exact ⟨by simp [sumLen], hsingle⟩
  · rw [if_neg hc]
    refine ⟨h.1, by simp, ?_⟩
    intro _
    dsimp only
    by_cases hcur : st.current = []
    · have h0 : st.curLen = 0 := h.2.1 hcur
      rw [hcur]
      exact ⟨by simp [sumLen, h0], by simpa using hsingle⟩
    · have hle : st.curLen + piece.length ≤ L := by
        rcases Nat.lt_or_ge L (st.curLen + piece.length) with hl | hg
        · exact absurd ⟨hl, hcur⟩ hc
        · exact hg
      have hinv := h.2.2 hcur
      constructor
      · simp only [sumLen, List.map_append, List.sum_append,
          List.length_append]
        simp only [sumLen] at hinv
        simp [List.map, List.sum_cons]
        omega
      · left
        have hne2 : st.current ++ [piece] ≠ [] := by simp
        have hj := joinSp_length (st.current ++ [piece]) hne2
        simp only [sumLen, List.map_append, List.sum_append,
          List.length_append] at hj
        simp only [sumLen] at hinv
        simp [List.map, List.sum_cons] at hj
        omega

theorem foldPieces_inv {P : List (List Char)} {L : Nat}
    (f : List Char → List Char) :
    ∀ (ss : List (List Char)) (st : ChunkState),
      (∀ s ∈ ss, (f s).length ≤ L ∨ pieceFromDocx P L (f s)) →
      chunkInv P L st →
      chunkInv P L (ss.foldl (fun a s => pushPiece L 1 a (f s)) st) := by
  intro ss
  induction ss with
  | nil => intro st _ h; exact h
  | cons s rest ih =>
    intro st hss h
    exact ih (pushPiece L 1 st (f s))
      (fun x hx => hss x (by simp [hx]))
      (pushPiece_inv h (hss s (by simp)))

theorem stepDocx_inv {P : List (List Char)} {L : Nat} {st : ChunkState}
    {p : List Char} (hmem : p ∈ P) (h : chunkInv P L st) :
    chunkInv P L (stepDocx L st p) := by
  unfold stepDocx
  by_cases h0 : cleanWS p = []
  · simp [h0, h]
  · rw [if_neg h0]
    by_cases hL : L < (cleanWS p).length
    · rw [if_pos hL]
      exact foldPieces_inv trim (sentencesOf (cleanWS p)) st
        (fun s hs => Or.inr ⟨p, hmem, hL, List.mem_map_of_mem trim hs⟩) h
    · rw [if_neg hL]
      exact pushPiece_inv h (Or.inl (Nat.le_of_not_lt hL))

theorem foldParas_inv {P : List (List Char)} {L : Nat} :
    ∀ (ps : List (List Char)) (st : ChunkState),
      (∀ p ∈ ps, p ∈ P) → chunkInv P L st →
      chunkInv P L (ps.foldl (stepDocx L) st) := by
  intro ps
  induction ps with
  | nil => intro st _ h; exact h
  | cons p rest ih =>
    intro st hps h
    exact ih (stepDocx L st p) (fun x hx => hps x (by simp [hx]))
      (stepDocx_inv (hps p (by simp)) h)

theorem finishChunks_good {P : List (List Char)} {L : Nat} {st : ChunkState}
    (h : chunkInv P L st) : ∀ c ∈ finishChunks st, goodChunk P L c := by
  intro c hc
  unfold finishChunks at hc
  by_cases hcur : st.current = []
  · rw [if_pos hcur] at hc
    exact h.1 c hc
  · rw [if_neg hcur] at hc
    rcases List.mem_append.mp hc with hold | hnew
    · exact h.1 c hold
    · rw [List.mem_singleton.mp hnew]
      exact flush_good h hcur

/-- C2 amended, proved: every chunk emitted by the process-docx
`createChunks` has length at most `maxChunkLength` — counting the full
emitted string with its joining spaces — except a chunk that is a single
(trimmed) sentence piece of an over-long paragraph, which is emitted alone
and verbatim.  (The part_009 copy violates this bound; see the
counterexample below.) -/
theorem createChunksDocx_length_bound (t : List Char) (L : Nat) :
    ∀ c ∈ createChunksDocx t L,
      c.length ≤ L ∨ (L < c.length ∧ pieceFromDocx (splitParas t) L c) := by
  intro c hc
  have hinv : chunkInv (splitParas t) L
      ((splitParas t).foldl (stepDocx L) ⟨[], [], 0⟩) :=
    foldParas_inv (splitParas t) ⟨[], [], 0⟩ (fun p hp => hp)
      ⟨by simp, fun _ => rfl, by simp⟩
  unfold createChunksDocx at hc
  obtain ⟨c0, hc0, hctrim⟩ := List.mem_map.mp hc
  have hc0mem : c0 ∈ finishChunks
      ((splitParas t).foldl (stepDocx L) ⟨[], [], 0⟩) :=
    List.mem_of_mem_filter hc0
  have hgood := finishChunks_good hinv c0 hc0mem
  rcases hgood with hle | ⟨hlt, hpf⟩
  · exact Or.inl (hctrim ▸ le_trans (trim_length_le c0) hle)
  · obtain ⟨p, hp, hpL, hcmem⟩ := hpf
    obtain ⟨x, hx, hxtrim⟩ := List.mem_map.mp hcmem
    have hfix : trim c0 = c0 := by rw [← hxtrim, trim_idem]
    rw [← hctrim, hfix]
    exact Or.inr ⟨hlt, p, hp, hpL, hcmem⟩

/-- Witness for the amended C2: a short single-paragraph input whose one
chunk satisfies the bound. -/
theorem createChunksDocx_length_bound_witness :
    String.toList "hi" ∈ createChunksDocx (String.toList "hi") 10 ∧
    ((String.toList "hi").length ≤ 10 ∨
      (10 < (String.toList "hi").length ∧
        pieceFromDocx (splitParas (String.toList "hi")) 10
          (String.toList "hi"))) :=
  ⟨by decide, createChunksDocx_length_bound (String.toList "hi") 10
    (String.toList "hi") (by decide)⟩

/-- The part_009 analogue of `pieceFromDocx` (part_009 cleans sentence pieces
with `cleanText` instead of `trim`). -/
def pieceFromNine (t : List Char) (L : Nat) (c : List Char) : Prop :=
  ∃ p ∈ splitParas t, L < (cleanText p).length ∧
    c ∈ (sentencesOf (cleanText p)).map cleanText

instance (t : List Char) (L : Nat) (c : List Char) :
    Decidable (pieceFromNine t L c) :=
  inferInstanceAs (Decidable (∃ p ∈ splitParas t,
    L < (cleanText p).length ∧ c ∈ (sentencesOf (cleanText p)).map cleanText))

/-- C2 counterexample: for the part_009 copy of `createChunks` the claimed
bound is false.  On four one-character paragraphs with maxChunkLength 3 the
handler emits the chunk "a b c" of length 5 > 3 (the running length omits
the join separators), and that chunk is not a single over-long sentence. -/
theorem createChunksNine_exceeds_bound :
    ¬ (∀ c ∈ createChunksNine (String.toList "a\n\nb\n\nc\n\nd") 3,
        c.length ≤ 3 ∨ (3 < c.length ∧
          pieceFromNine (String.toList "a\n\nb\n\nc\n\nd") 3 c)) := by
  decide

/-!
Claim C3 — edge cases: empty input, and a paragraph of exactly the limit.
-/

theorem spAux_no_newline :
    ∀ (s : List Char) (fuel : Nat) (acc : List Char),
      s.length < fuel → '\n' ∉ s → spAux fuel acc s = [acc.reverse ++ s] := by
  intro s
  induction s with
  | nil =>
    intro fuel acc hf _
    cases fuel with
    | zero => omega
    | succ f => simp [spAux]
  | cons c rest ih =>
    intro fuel acc hf hnl
    have hc : c ≠ '\n' := fun h => hnl (h ▸ List.mem_cons_self c rest)
    have hrest : '\n' ∉ rest := fun h => hnl (List.mem_cons_of_mem c h)
    cases fuel with
    | zero => simp at hf
    | succ f =>
      have hcond : ¬(c = '\n' ∧ '\n' ∈ rest.takeWhile jsWS) :=
        fun h => hc h.1
      simp only [spAux, if_neg hcond]
      rw [ih f (c :: acc) (by simpa using hf) hrest]
      simp

theorem splitParas_no_newline {s : List Char} (h : '\n' ∉ s) :
    splitParas s = [s] := by
  have := spAux_no_newline s (s.length + 1) [] (by omega) h
  simpa [splitParas] using this

theorem mem_collapseWS_ws :
    ∀ (s : List Char) (c : Char), c ∈ collapseWS s → jsWS c = true → c = ' ' := by
  intro s
  induction s with
  | nil => intro c hc; simp [collapseWS] at hc
  | cons a rest ih =>
    intro c hc hw
    cases rest with
    | nil =>
      by_cases ha : jsWS a
      · simp [collapseWS, ha] at hc
        exact hc
      · simp [collapseWS, ha] at hc
        rw [hc] at hw
        exact absurd hw (by simpa using ha)
    | cons b rest2 =>
      by_cases hab : jsWS a && jsWS b
      · rw [show collapseWS (a :: b :: rest2) = collapseWS (b :: rest2) by
          simp [collapseWS, hab]] at hc
        exact ih c hc hw
      · rw [show collapseWS (a :: b :: rest2) =
            (if jsWS a then ' ' else a) :: collapseWS (b :: rest2) by
          simp only [collapseWS, if_neg hab]] at hc
        rcases List.mem_cons.mp hc with hh | ht
        · by_cases ha : jsWS a
          · rw [hh]; simp [ha]
          · rw [hh] at hw ⊢
            simp only [if_neg ha] at hw ⊢
            exact absurd hw (by simpa using ha)
        · exact ih c ht hw

/-- No two adjacent whitespace characters. -/
def noDoubleWS : List Char → Prop
  | [] => True
  | [_] => True
  | c1 :: c2 :: rest =>
    ¬(jsWS c1 = true ∧ jsWS c2 = true) ∧ noDoubleWS (c2 :: rest)

theorem noDoubleWS_tail {a : Char} {l : List Char}
    (h : noDoubleWS (a :: l)) : noDoubleWS l := by
  cases l with
  | nil => trivial
  | cons b rest => exact h.2

theorem collapseWS_head_not_ws {b : Char} (rest2 : List Char)
    (hb : jsWS b = false) : ∃ t, collapseWS (b :: rest2) = b :: t := by
  cases rest2 with
  | nil => exact ⟨[], by simp [collapseWS, hb]⟩
  | cons d rest3 =>
    refine ⟨collapseWS (d :: rest3), ?_⟩
    simp [collapseWS, hb]

theorem noDoubleWS_collapseWS : ∀ s : List Char, noDoubleWS (collapseWS s) := by
  intro s
  induction s with
  | nil => trivial
  | cons a rest ih =>
    cases rest with
    | nil =>
      by_cases ha : jsWS a <;> simp [collapseWS, ha] <;> trivial
    | cons b rest2 =>
      by_cases hab : jsWS a && jsWS b
      · rw [show collapseWS (a :: b :: rest2) = collapseWS (b :: rest2) by
          simp [collapseWS, hab]]
        exact ih
      · rw [show collapseWS (a :: b :: rest2) =
            (if jsWS a then ' ' else a) :: collapseWS (b :: rest2) by
          simp only [collapseWS, if_neg hab]]
        by_cases ha : jsWS a
        · have hb : jsWS b = false := by
            by_cases h : jsWS b
            · exact absurd (by simp [ha, h]) hab
            · simpa using h
          obtain ⟨t, ht⟩ := collapseWS_head_not_ws rest2 hb
          rw [ht]
          exact ⟨fun hcontra => by simp [hb] at hcontra, ht ▸ ih⟩
        · cases hcol : collapseWS (b :: rest2) with
          | nil => simp [ha]; trivial
          | cons d t =>
            refine ⟨fun hcontra => ?_, hcol ▸ ih⟩
            rw [if_neg ha] at hcontra
            exact absurd hcontra.1 (by simpa using ha)

theorem noDoubleWS_suffix :
    ∀ (pre l : List Char), noDoubleWS (pre ++ l) → noDoubleWS l := by
  intro pre
  induction pre with
  | nil => intro l h; exact h
  | cons a pre2 ih =>
    intro l h
    exact ih l (noDoubleWS_tail h)

theorem noDoubleWS_prefixClosed :
    ∀ (l post : List Char), noDoubleWS (l ++ post) → noDoubleWS l := by
  intro l
  induction l with
  | nil => intro _ _; trivial
  | cons a tail ih =>
    intro post h
    cases tail with
    | nil => trivial
    | cons b rest =>
      exact ⟨h.1, ih post h.2⟩

theorem noDoubleWS_trim {s : List Char} (h : noDoubleWS s) :
    noDoubleWS (trim s) := by
  obtain ⟨pre, hpre⟩ := List.dropWhile_suffix (l := s) jsWS
  have h1 : noDoubleWS (s.dropWhile jsWS) :=
    noDoubleWS_suffix pre _ (by rw [hpre]; exact h)
  obtain ⟨post, hpost⟩ := trimEnd_prefixOf (s.dropWhile jsWS)
  refine noDoubleWS_prefixClosed _ post ?_
  show noDoubleWS (trimEnd (s.dropWhile jsWS) ++ post)
  rw [hpost]
  exact h1

theorem collapseWS_fixpoint :
    ∀ l : List Char, (∀ c ∈ l, jsWS c = true → c = ' ') → noDoubleWS l →
      collapseWS l = l := by
  intro l
  induction l with
  | nil => intro _ _; rfl
  | cons a tail ih =>
    intro hws hnd
    cases tail with
    | nil =>
      by_cases ha : jsWS a
      · have := hws a (by simp) ha
        simp [collapseWS, ha, this]
      · simp [collapseWS, ha]
    | cons b rest =>
      have hab : ¬(jsWS a && jsWS b) = true := by
        intro hcontra
        exact hnd.1 (by simpa using hcontra)
      rw [show collapseWS (a :: b :: rest) =
          (if jsWS a then ' ' else a) :: collapseWS (b :: rest) by
        simp only [collapseWS, if_neg hab]]
      rw [ih (fun c hc hw => hws c (by simp [hc]) hw) hnd.2]
      by_cases ha : jsWS a
      · rw [if_pos ha, hws a (by simp) ha]
      · rw [if_neg ha]

theorem cleanText_ws_space {p : List Char} (hp : cleanText p = p) :
    ∀ c ∈ p, jsWS c = true → c = ' ' := by
  intro c hc hw
  rw [← hp] at hc
  exact mem_collapseWS_ws _ c (mem_of_mem_trim hc) hw

theorem cleanText_no_newline {p : List Char} (hp : cleanText p = p) :
    '\n' ∉ p := by
  intro h
  have := cleanText_ws_space hp '\n' h (by decide)
  simp at this

theorem cleanText_noDoubleWS {p : List Char} (hp : cleanText p = p) :
    noDoubleWS p := by
  rw [← hp]
  exact noDoubleWS_trim (noDoubleWS_collapseWS _)

theorem cleanText_trim_fix {p : List Char} (hp : cleanText p = p) :
    trim p = p := by
  conv_lhs => rw [← hp]
  show trim (trim (collapseWS (p.filter (fun c => !ctlChar c)))) = p
  rw [trim_idem]
  exact hp

theorem cleanText_collapse_fix {p : List Char} (hp : cleanText p = p) :
    collapseWS p = p :=
  collapseWS_fixpoint p (cleanText_ws_space hp) (cleanText_noDoubleWS hp)

theorem cleanText_cleanWS_fix {p : List Char} (hp : cleanText p = p) :
    cleanWS p = p := by
  unfold cleanWS
  rw [cleanText_collapse_fix hp, cleanText_trim_fix hp]

theorem createChunksNine_nil (L : Nat) : createChunksNine [] L = [] := by
  have hsp : splitParas ([] : List Char) = [[]] := rfl
  have hct : cleanText [] = [] := rfl
  simp [createChunksNine, hsp, stepNine, hct, pushPiece, finishChunks, joinSp]

theorem createChunksDocx_nil (L : Nat) : createChunksDocx [] L = [] := by
  have hsp : splitParas ([] : List Char) = [[]] := rfl
  have hcw : cleanWS [] = [] := rfl
  simp [createChunksDocx, hsp, stepDocx, hcw, finishChunks]

theorem createChunksNine_exact (p : List Char) (L : Nat)
    (hp : cleanText p = p) (hne : p ≠ []) (hlen : p.length = L) :
    createChunksNine p L = [p] := by
  have hsp : splitParas p = [p] := splitParas_no_newline (cleanText_no_newline hp)
  have hnotlt : ¬ L < (cleanText p).length := by rw [hp, hlen]; exact lt_irrefl L
  have hpos : 0 < p.length := List.length_pos.mpr hne
  unfold createChunksNine
  rw [hsp]
  simp only [List.foldl_cons, List.foldl_nil, stepNine, if_neg hnotlt]
  rw [hp]
  simp only [pushPiece, List.length_nil]
  rw [if_neg (by simp)]
  simp [finishChunks, joinSp, hp, hpos]

theorem createChunksDocx_exact (p : List Char) (L : Nat)
    (hp : cleanText p = p) (hne : p ≠ []) (hlen : p.length = L) :
    createChunksDocx p L = [p] := by
  have hcw : cleanWS p = p := cleanText_cleanWS_fix hp
  have hsp : splitParas p = [p] := splitParas_no_newline (cleanText_no_newline hp)
  have hnotlt : ¬ L < p.length := by rw [hlen]; exact lt_irrefl L
  have hpos : 0 < p.length := List.length_pos.mpr hne
  unfold createChunksDocx
  rw [hsp]
  simp only [List.foldl_cons, List.foldl_nil, stepDocx, hcw, if_neg hne,
    if_neg hnotlt]
  simp only [pushPiece, List.length_nil]
  rw [if_neg (by simp)]
  simp [finishChunks, joinSp, hpos, cleanText_trim_fix hp]

/-- C3: for every maxChunkLength, the empty input yields no chunks in both
copies of `createChunks`; and a single normalized non-empty paragraph of
exactly the limit's length is returned as the one chunk, unsplit, in both
copies. -/
theorem createChunks_edge_cases :
    (∀ L, createChunksNine [] L = [] ∧ createChunksDocx [] L = []) ∧
    (∀ (p : List Char) (L : Nat), cleanText p = p → p ≠ [] → p.length = L →
      createChunksNine p L = [p] ∧ createChunksDocx p L = [p]) :=
  ⟨fun L => ⟨createChunksNine_nil L, createChunksDocx_nil L⟩,
   fun p L hp hne hlen =>
    ⟨createChunksNine_exact p L hp hne hlen,
     createChunksDocx_exact p L hp hne hlen⟩⟩

/-- Witness for C3 at the normalized two-character paragraph "ab" with
maxChunkLength 2. -/
theorem createChunks_edge_cases_witness :
    createChunksNine [] 7 = [] ∧
    createChunksNine (String.toList "ab") 2 = [String.toList "ab"] ∧
    createChunksDocx (String.toList "ab") 2 = [String.toList "ab"] := by
  refine ⟨(createChunks_edge_cases.1 7).1, ?_, ?_⟩
  · exact (createChunks_edge_cases.2 (String.toList "ab") 2 (by decide)
      (by decide) (by decide)).1
  · exact (createChunks_edge_cases.2 (String.toList "ab") 2 (by decide)
      (by decide) (by decide)).2
